import Mathlib

/-!
Verification of the viewpoint-selection and camera-framing engine of
`model_renderer.py` (class `ModelRenderer`).

The scorer (`find_best_front_views`) works with unit view directions whose
coordinates live in the real quadratic field ℚ(√2): every candidate it
generates is either a rational vector or a diagonal normalized by √2, so all
dot products, scores and comparisons performed by the code stay inside this
field.  We embed that arithmetic exactly with the type `Q2` below (pairs
a + b·√2 of rationals), which keeps every comparison decidable and every
definition executable.  The camera framer (`render_view`) only needs plain
rational arithmetic once the two square roots it takes (`diagonal_size` and
`distance`) are passed relationally, i.e. as arguments constrained by their
defining equations.
-/

/-- An element `a + b·√2` of the field ℚ(√2). -/
@[ext]
structure Q2 where
  a : ℚ
  b : ℚ
deriving DecidableEq

namespace Q2

instance : Zero Q2 := ⟨⟨0, 0⟩⟩

instance : One Q2 := ⟨⟨1, 0⟩⟩

instance : Add Q2 := ⟨fun x y => ⟨x.a + y.a, x.b + y.b⟩⟩

instance : Neg Q2 := ⟨fun x => ⟨-x.a, -x.b⟩⟩

instance : Sub Q2 := ⟨fun x y => ⟨x.a - y.a, x.b - y.b⟩⟩

instance : Mul Q2 := ⟨fun x y => ⟨x.a * y.a + 2 * x.b * y.b, x.a * y.b + x.b * y.a⟩⟩

@[simp] theorem zero_a : (0 : Q2).a = 0 := rfl

@[simp] theorem zero_b : (0 : Q2).b = 0 := rfl

@[simp] theorem one_a : (1 : Q2).a = 1 := rfl

@[simp] theorem one_b : (1 : Q2).b = 0 := rfl

@[simp] theorem add_a (x y : Q2) : (x + y).a = x.a + y.a := rfl

@[simp] theorem add_b (x y : Q2) : (x + y).b = x.b + y.b := rfl

@[simp] theorem neg_a (x : Q2) : (-x).a = -x.a := rfl

@[simp] theorem neg_b (x : Q2) : (-x).b = -x.b := rfl

@[simp] theorem sub_a (x y : Q2) : (x - y).a = x.a - y.a := rfl

@[simp] theorem sub_b (x y : Q2) : (x - y).b = x.b - y.b := rfl

@[simp] theorem mul_a (x y : Q2) : (x * y).a = x.a * y.a + 2 * x.b * y.b := rfl

@[simp] theorem mul_b (x y : Q2) : (x * y).b = x.a * y.b + x.b * y.a := rfl

instance : CommRing Q2 where
  add_assoc x y z := by ext <;> simp <;> ring
  zero_add x := by ext <;> simp
  add_zero x := by ext <;> simp
  add_comm x y := by ext <;> simp <;> ring
  mul_assoc x y z := by ext <;> simp <;> ring
  one_mul x := by ext <;> simp
  mul_one x := by ext <;> simp
  left_distrib x y z := by ext <;> simp <;> ring
  right_distrib x y z := by ext <;> simp <;> ring
  zero_mul x := by ext <;> simp
  mul_zero x := by ext <;> simp
  mul_comm x y := by ext <;> simp <;> ring
  neg_add_cancel x := by ext <;> simp
  sub_eq_add_neg x y := by ext <;> simp <;> ring
  nsmul := nsmulRec
  zsmul := zsmulRec

/-- Interpretation of `Q2` in the real numbers. -/
noncomputable def toReal (x : Q2) : ℝ := (x.a : ℝ) + (x.b : ℝ) * Real.sqrt 2

theorem toReal_injective : Function.Injective toReal := by
  intro x y h
  by_cases hb : x.b = y.b
  · ext
    · have := h
      unfold toReal at this
      rw [hb] at this
      have ha : (x.a : ℝ) = (y.a : ℝ) := by linarith
      exact_mod_cast ha
    · exact hb
  · exfalso
    apply irrational_sqrt_two
    refine ⟨(x.a - y.a) / (y.b - x.b), ?_⟩
    unfold toReal at h
    have hb2 : ((y.b - x.b : ℚ) : ℝ) ≠ 0 := by
      exact_mod_cast sub_ne_zero.mpr (Ne.symm hb)
    push_cast
    push_cast at hb2
    field_simp
    linarith

theorem toReal_add (x y : Q2) : (x + y).toReal = x.toReal + y.toReal := by
  simp only [toReal, add_a, add_b]
  push_cast
  ring

theorem toReal_sub (x y : Q2) : (x - y).toReal = x.toReal - y.toReal := by
  simp only [toReal, sub_a, sub_b]
  push_cast
  ring

theorem toReal_zero : (0 : Q2).toReal = 0 := by
  simp only [toReal, zero_a, zero_b]
  push_cast
  ring

/-- The decidable sign test: `a + b·√2 ≥ 0`, expressed with rational
comparisons only. -/
def nonneg (x : Q2) : Prop :=
  (0 ≤ x.a ∧ 0 ≤ x.b) ∨
  (0 ≤ x.a ∧ x.b < 0 ∧ 2 * x.b ^ 2 ≤ x.a ^ 2) ∨
  (x.a < 0 ∧ 0 ≤ x.b ∧ x.a ^ 2 ≤ 2 * x.b ^ 2)

instance : DecidablePred nonneg := fun x => by unfold nonneg; infer_instance

theorem nonneg_iff_toReal (x : Q2) : x.nonneg ↔ 0 ≤ x.toReal := by
  have hs0 : (0 : ℝ) ≤ Real.sqrt 2 := Real.sqrt_nonneg 2
  have hs2 : Real.sqrt 2 ^ 2 = 2 := Real.sq_sqrt (by norm_num)
  unfold nonneg toReal
  constructor
  · rintro (⟨h1, h2⟩ | ⟨h1, h2, h3⟩ | ⟨h1, h2, h3⟩)
    · have h1r : (0 : ℝ) ≤ (x.a : ℝ) := by exact_mod_cast h1
      have h2r : (0 : ℝ) ≤ (x.b : ℝ) := by exact_mod_cast h2
      nlinarith
    · have h1r : (0 : ℝ) ≤ (x.a : ℝ) := by exact_mod_cast h1
      have h2r : (x.b : ℝ) < 0 := by exact_mod_cast h2
      have h3r : 2 * (x.b : ℝ) ^ 2 ≤ (x.a : ℝ) ^ 2 := by exact_mod_cast h3
      have hsq : (-(x.b : ℝ) * Real.sqrt 2) ^ 2 ≤ (x.a : ℝ) ^ 2 := by
        rw [mul_pow]
        nlinarith
      have key := le_of_pow_le_pow_left₀ two_ne_zero h1r hsq
      nlinarith [mul_nonneg (neg_nonneg.mpr h2r.le) hs0]
    · have h1r : (x.a : ℝ) < 0 := by exact_mod_cast h1
      have h2r : (0 : ℝ) ≤ (x.b : ℝ) := by exact_mod_cast h2
      have h3r : (x.a : ℝ) ^ 2 ≤ 2 * (x.b : ℝ) ^ 2 := by exact_mod_cast h3
      have hsq : (-(x.a : ℝ)) ^ 2 ≤ ((x.b : ℝ) * Real.sqrt 2) ^ 2 := by
        rw [mul_pow]
        nlinarith
      have key := le_of_pow_le_pow_left₀ two_ne_zero (mul_nonneg h2r hs0) hsq
      nlinarith
  · intro h
    rcases le_or_lt 0 x.a with ha | ha <;> rcases le_or_lt 0 x.b with hb | hb
    · exact Or.inl ⟨ha, hb⟩
    · refine Or.inr (Or.inl ⟨ha, hb, ?_⟩)
      have har : (0 : ℝ) ≤ (x.a : ℝ) := by exact_mod_cast ha
      have hbr : (x.b : ℝ) < 0 := by exact_mod_cast hb
      have h5 : (0 : ℝ) ≤ (x.a : ℝ) - (x.b : ℝ) * Real.sqrt 2 := by
        nlinarith [mul_nonneg (neg_nonneg.mpr hbr.le) hs0]
      have h6 := mul_nonneg h h5
      have : 2 * (x.b : ℝ) ^ 2 ≤ (x.a : ℝ) ^ 2 := by nlinarith
      exact_mod_cast this
    · refine Or.inr (Or.inr ⟨ha, hb, ?_⟩)
      have har : (x.a : ℝ) < 0 := by exact_mod_cast ha
      have hbr : (0 : ℝ) ≤ (x.b : ℝ) := by exact_mod_cast hb
      have h5 : (0 : ℝ) ≤ (x.b : ℝ) * Real.sqrt 2 - (x.a : ℝ) := by
        nlinarith [mul_nonneg hbr hs0]
      have h6 := mul_nonneg h h5
      have : (x.a : ℝ) ^ 2 ≤ 2 * (x.b : ℝ) ^ 2 := by nlinarith
      exact_mod_cast this
    · exfalso
      have har : (x.a : ℝ) < 0 := by exact_mod_cast ha
      have hbr : (x.b : ℝ) < 0 := by exact_mod_cast hb
      nlinarith [mul_nonneg (neg_nonneg.mpr hbr.le) hs0]

instance : LE Q2 := ⟨fun x y => (y - x).nonneg⟩

instance : LT Q2 := ⟨fun x y => x ≤ y ∧ ¬y ≤ x⟩

theorem le_iff_toReal (x y : Q2) : x ≤ y ↔ x.toReal ≤ y.toReal := by
  show (y - x).nonneg ↔ _
  rw [nonneg_iff_toReal, toReal_sub, sub_nonneg]

theorem lt_iff_toReal (x y : Q2) : x < y ↔ x.toReal < y.toReal := by
  show (x ≤ y ∧ ¬y ≤ x) ↔ _
  rw [le_iff_toReal, le_iff_toReal]
  constructor
  · rintro ⟨h1, h2⟩; exact lt_of_le_not_le h1 h2
  · intro h; exact ⟨le_of_lt h, not_le_of_lt h⟩

instance decLE : ∀ x y : Q2, Decidable (x ≤ y) :=
  fun x y => inferInstanceAs (Decidable ((y - x).nonneg))

instance decLT : ∀ x y : Q2, Decidable (x < y) :=
  fun x y => inferInstanceAs (Decidable (x ≤ y ∧ ¬y ≤ x))

instance : LinearOrder Q2 where
  le_refl x := by rw [le_iff_toReal]
  le_trans x y z hxy hyz := by
    rw [le_iff_toReal] at *
    exact le_trans hxy hyz
  le_antisymm x y hxy hyx := by
    rw [le_iff_toReal] at *
    exact toReal_injective (le_antisymm hxy hyx)
  le_total x y := by
    rw [le_iff_toReal, le_iff_toReal]
    exact le_total _ _
  lt_iff_le_not_le x y := Iff.rfl
  decidableLE := decLE
  decidableEq := inferInstance
  decidableLT := decLT

/-- Embedding of the rationals into ℚ(√2). -/
def ofRat (q : ℚ) : Q2 := ⟨q, 0⟩

@[simp] theorem ofRat_a (q : ℚ) : (ofRat q).a = q := rfl

@[simp] theorem ofRat_b (q : ℚ) : (ofRat q).b = 0 := rfl

instance : Inv Q2 :=
  ⟨fun x => ⟨x.a / (x.a ^ 2 - 2 * x.b ^ 2), -x.b / (x.a ^ 2 - 2 * x.b ^ 2)⟩⟩

instance : Div Q2 := ⟨fun x y => x * y⁻¹⟩

theorem div_one_q2 (x : Q2) : x / 1 = x := by
  show x * (1 : Q2)⁻¹ = x
  have h1 : (1 : Q2)⁻¹ = 1 := by
    show (⟨(1:Q2).a / ((1:Q2).a ^ 2 - 2 * (1:Q2).b ^ 2),
      -(1:Q2).b / ((1:Q2).a ^ 2 - 2 * (1:Q2).b ^ 2)⟩ : Q2) = 1
    ext <;> norm_num
  rw [h1, mul_one]

end Q2

/-- Kernel-reducible integer square root by bounded search:
`isqrtGo n fuel k` increments `k` while `(k+1)^2 ≤ n`. -/
def isqrtGo (n : ℕ) : ℕ → ℕ → ℕ
  | 0, k => k
  | fuel + 1, k => if (k + 1) * (k + 1) ≤ n then isqrtGo n fuel (k + 1) else k

/-- Kernel-reducible integer square root (floor). -/
def isqrt (n : ℕ) : ℕ := isqrtGo n n 0

/-- Exact square root of a rational, when it is a rational square.  The result
is validated by re-squaring, so no correctness property of `isqrt` is needed. -/
def ratSqrt? (q : ℚ) : Option ℚ :=
  if q < 0 then none
  else
    let sn := isqrt q.num.toNat
    let sd := isqrt q.den
    if sn * sn = q.num.toNat ∧ sd * sd = q.den then some ((sn : ℚ) / (sd : ℚ))
    else none

/-- `ratSqrt?` with default 0 (used only to build candidate square roots, which
are validated by re-squaring before use). -/
def ratSqrtD (q : ℚ) : ℚ := (ratSqrt? q).getD 0

/-- Candidate square roots of `x = a + b·√2` inside ℚ(√2): either `c`, `c·√2`,
or `c + d·√2` obtained from the norm-form equations `c² + 2d² = a`, `2cd = b`. -/
def Q2.sqrtCandidates (x : Q2) : List Q2 :=
  let s := ratSqrtD (x.a ^ 2 - 2 * x.b ^ 2)
  let c1 := ratSqrtD ((x.a + s) / 2)
  let c2 := ratSqrtD ((x.a - s) / 2)
  [⟨ratSqrtD x.a, 0⟩, ⟨0, ratSqrtD (x.a / 2)⟩] ++
    (if c1 ≠ 0 then [⟨c1, x.b / (2 * c1)⟩] else []) ++
    (if c2 ≠ 0 then [⟨c2, x.b / (2 * c2)⟩] else [])

/-- Exact nonnegative square root within ℚ(√2), validated by re-squaring;
0 when the square root does not lie in ℚ(√2).  This models `np.sqrt` /
`np.linalg.norm`, which `find_best_front_views` only applies to values whose
square root stays in ℚ(√2) (candidate norms are `1` or `√2`). -/
def Q2.sqrtD (x : Q2) : Q2 :=
  ((Q2.sqrtCandidates x).find? (fun y => decide (y * y = x ∧ Q2.nonneg y))).getD 0

theorem Q2.sqrtD_one : Q2.sqrtD 1 = 1 := by with_unfolding_all decide

theorem Q2.sqrtD_two : Q2.sqrtD 2 = ⟨0, 1⟩ := by with_unfolding_all decide

/-- 3-vectors over a coordinate type. -/
abbrev V3 (α : Type) : Type := α × α × α

/-- Dot product (models `np.dot` on 3-vectors). -/
def V3.dot {α : Type} [Mul α] [Add α] (u v : V3 α) : α :=
  u.1 * v.1 + u.2.1 * v.2.1 + u.2.2 * v.2.2

/-- Scalar multiple. -/
def V3.scale {α : Type} [Mul α] (c : α) (v : V3 α) : V3 α :=
  (c * v.1, c * v.2.1, c * v.2.2)

/-- Componentwise division by a scalar (models `v / np.linalg.norm(v)`). -/
def V3.sdiv {α : Type} [Div α] (v : V3 α) (c : α) : V3 α :=
  (v.1 / c, v.2.1 / c, v.2.2 / c)

/-- Componentwise negation (models `-component`). -/
def V3.vneg {α : Type} [Neg α] (v : V3 α) : V3 α := (-v.1, -v.2.1, -v.2.2)

/-- Componentwise subtraction. -/
def V3.vsub {α : Type} [Sub α] (u v : V3 α) : V3 α :=
  (u.1 - v.1, u.2.1 - v.2.1, u.2.2 - v.2.2)

/-- Squared Euclidean norm. -/
def V3.normSq {α : Type} [Mul α] [Add α] (v : V3 α) : α := V3.dot v v

/-- `v / np.linalg.norm(v)` over ℚ(√2) (model_renderer.py lines 86 and 91). -/
def V3.normalize (v : V3 Q2) : V3 Q2 := V3.sdiv v (Q2.sqrtD (V3.normSq v))

theorem Q2.div_one_q2' (x : Q2) : x / (1 : Q2) = x := Q2.div_one_q2 x

theorem V3.normalize_of_normSq_one {v : V3 Q2} (h : V3.normSq v = 1) :
    V3.normalize v = v := by
  unfold V3.normalize
  rw [h, Q2.sqrtD_one]
  unfold V3.sdiv
  rw [Q2.div_one_q2, Q2.div_one_q2, Q2.div_one_q2]

/-- Absolute value on ℚ(√2) (models python `abs`). -/
def Q2.qabs (x : Q2) : Q2 := max x (-x)

/-- A view direction over ℚ(√2). -/
abbrev Vec : Type := V3 Q2

/-- Priority views tested first (model_renderer.py lines 61-64). -/
def priority_views : List (Vec × String) :=
  [((0, 0, 1), "top"), ((0, -1, 0), "front")]

/-- The full candidate list, in generation order: the two priority views, the
six signed PCA axes, then the six normalized standard orthographic views
(model_renderer.py lines 66-86).  The three PCA components are parameters:
the eigen-decomposition itself is performed by the external sklearn library. -/
def all_candidates (pca : Vec × Vec × Vec) : List (Vec × String × Bool) :=
  (priority_views.map (fun pv => (pv.1, pv.2, true))) ++
  [(pca.1, "pca_0_pos", false), (V3.vneg pca.1, "pca_0_neg", false),
   (pca.2.1, "pca_1_pos", false), (V3.vneg pca.2.1, "pca_1_neg", false),
   (pca.2.2, "pca_2_pos", false), (V3.vneg pca.2.2, "pca_2_neg", false)] ++
  [(V3.normalize (1, 0, 0), "right", false),
   (V3.normalize (-1, 0, 0), "left", false),
   (V3.normalize (0, 1, 0), "back", false),
   (V3.normalize (0, 0, -1), "bottom", false),
   (V3.normalize (1, 1, 0), "diag_1", false),
   (V3.normalize (1, 0, 1), "diag_2", false)]

/-- Face-visibility score (model_renderer.py lines 96-120): the fraction of
face normals with positive dot product against the view direction, computed
only for meshes with `0 < n_cells < 100000`; the constant 0.6 otherwise, and
also when the normal computation fails (modelled by `none`) or a division by
zero is caught by the `except` handler (empty normal array). -/
def visibility_score (normals : Option (List Vec)) (n_cells : ℕ) (d : Vec) : Q2 :=
  if 0 < n_cells ∧ n_cells < 100000 then
    match normals with
    | some fns =>
      if fns.length = 0 then Q2.ofRat (3 / 5)
      else Q2.ofRat (((fns.countP (fun f => decide (0 < V3.dot f d))) : ℚ) / (fns.length : ℚ))
    | none => Q2.ofRat (3 / 5)
  else Q2.ofRat (3 / 5)

/-- PCA-alignment score (model_renderer.py line 94): the maximum of the
absolute dot products of the (normalized) view direction with the three
principal components. -/
def pca_alignment (pca : Vec × Vec × Vec) (d : Vec) : Q2 :=
  max (max (Q2.qabs (V3.dot d pca.1)) (Q2.qabs (V3.dot d pca.2.1)))
    (Q2.qabs (V3.dot d pca.2.2))

/-- The scored candidate list (model_renderer.py lines 88-133): each candidate
is re-normalized, scored `pca_score * 2.0 + visibility_score * 3.0`, and given
a `+1.0` bonus when its priority flag is set. -/
def scored_views (pca : Vec × Vec × Vec) (normals : Option (List Vec))
    (n_cells : ℕ) : List (Vec × Q2 × String) :=
  (all_candidates pca).map (fun c =>
    let d := V3.normalize c.1
    let pca_score := pca_alignment pca d
    let vis := visibility_score normals n_cells d
    let base := pca_score * Q2.ofRat 2 + vis * Q2.ofRat 3
    (d, if c.2.2 then base + Q2.ofRat 1 else base, c.2.1))

/-- The comparison used by `scored_views.sort(key=lambda x: x[1],
reverse=True)`: `x` may precede `y` when the score of `y` is at most the
score of `x`. -/
abbrev score_ge (x y : Vec × Q2 × String) : Prop := y.2.1 ≤ x.2.1

instance score_ge_total : IsTotal (Vec × Q2 × String) score_ge :=
  ⟨fun a b => le_total b.2.1 a.2.1⟩

instance score_ge_trans : IsTrans (Vec × Q2 × String) score_ge :=
  ⟨fun _ _ _ h1 h2 => le_trans h2 h1⟩

/-- The scored list sorted by score, descending (model_renderer.py line 136).
Python's `list.sort` is stable, and a stable sort with respect to a total
preorder has a unique result, so the stable `List.insertionSort` computes
exactly the list `scored_views.sort(key=lambda x: x[1], reverse=True)`. -/
def sorted_views (pca : Vec × Vec × Vec) (normals : Option (List Vec))
    (n_cells : ℕ) : List (Vec × Q2 × String) :=
  List.insertionSort score_ge (scored_views pca normals n_cells)

/-- The selection loop (model_renderer.py lines 137-150): walk the sorted
list; accept a candidate unless its dot product with an already-accepted
direction exceeds 0.9 (raw, signed dot product); after each iteration, stop
as soon as `n_views` entries have been accepted. -/
def dedup_select (n_views : ℕ) : List (Vec × Q2 × String) → List (Vec × Q2 × String) → List (Vec × Q2 × String)
  | acc, [] => acc
  | acc, v :: rest =>
    let acc2 := if ∀ w ∈ acc, ¬(Q2.ofRat (9 / 10) < V3.dot v.1 w.1) then acc ++ [v] else acc
    if n_views ≤ acc2.length then acc2 else dedup_select n_views acc2 rest

/-- The de-duplicated ranked views (model_renderer.py lines 137-150). -/
def unique_views (pca : Vec × Vec × Vec) (normals : Option (List Vec))
    (n_cells : ℕ) (n_views : ℕ) : List (Vec × Q2 × String) :=
  dedup_select n_views [] (sorted_views pca normals n_cells)

/-- `find_best_front_views` (model_renderer.py lines 50-156), parametrized by
the PCA components, the optional face-normal array and the cell count; returns
the `(direction, score)` pairs of line 156. -/
def find_best_front_views (pca : Vec × Vec × Vec) (normals : Option (List Vec))
    (n_cells : ℕ) (n_views : ℕ) : List (Vec × Q2) :=
  (unique_views pca normals n_cells n_views).map (fun v => (v.1, v.2.1))

/-- `find_best_front_views` including the external PCA fit step.  Modelled
from the spec: the sklearn `PCA.fit` call on the mesh points (line 58) is
external library code; it rejects an empty sample array with a `ValueError`,
which the spec records as "a mesh with zero points is a fatal input-validation
error".  On nonempty point sets the fitted components are the `pca`
parameter. -/
def find_best_front_views_checked (points : List Vec) (pca : Vec × Vec × Vec)
    (normals : Option (List Vec)) (n_cells : ℕ) (n_views : ℕ) :
    Except String (List (Vec × Q2)) :=
  if points.isEmpty then
    .error ("PCA fit failed: 0 samples")
  else
    .ok (find_best_front_views pca normals n_cells n_views)

/-- ASCII lower-casing of one character, as performed by python `str.lower`
on the ASCII range (the only range the preset names use). -/
def lowerChar (c : Char) : Char :=
  if 65 ≤ c.toNat ∧ c.toNat ≤ 90 then Char.ofNat (c.toNat + 32) else c

/-- ASCII lower-casing of a string: models python `str.lower()` (the preset
dictionary keys are all ASCII). -/
def lowerStr (s : String) : String := ⟨s.data.map lowerChar⟩

theorem toNat_ofNat_add32 (m : ℕ) (h1 : 65 ≤ m) (h2 : m ≤ 90) :
    (Char.ofNat (m + 32)).toNat = m + 32 := by
  interval_cases m <;> decide

theorem lowerChar_idem (c : Char) : lowerChar (lowerChar c) = lowerChar c := by
  unfold lowerChar
  by_cases h : 65 ≤ c.toNat ∧ c.toNat ≤ 90
  · rw [if_pos h, if_neg]
    rw [toNat_ofNat_add32 c.toNat h.1 h.2]
    omega
  · rw [if_neg h, if_neg h]

theorem lowerStr_idem (s : String) : lowerStr (lowerStr s) = lowerStr s := by
  unfold lowerStr
  simp [List.map_map, Function.comp_def, lowerChar_idem]

theorem lowerStr_eq_empty_iff (s : String) : lowerStr s = "" ↔ s = "" := by
  unfold lowerStr
  constructor
  · intro h
    have hd : s.data.map lowerChar = [] := congrArg String.data h
    have hde : s.data = [] := List.map_eq_nil_iff.mp hd
    cases s with
    | mk data => exact congrArg String.mk hde
  · intro h
    rw [h]
    rfl

/-- The produced camera parametrization: everything `render_view` sets on the
plotter camera for one view, plus the corrective zoom multiplier it applies
after the auto-fit (`none` when the zoom correction is skipped). -/
structure CameraFrame where
  position : V3 ℚ
  focal_point : V3 ℚ
  up : V3 ℚ
  view_angle : ℚ
  near_clip : ℚ
  far_clip : ℚ
  zoom_factor : Option ℚ
deriving DecidableEq

def unknownPresetMsg : String := "Unknown preset. Available: front, back, top, bottom, left, right"

def mustSpecifyMsg : String := "Must specify either view_direction or preset"

def zeroDivisionMsg : String := "ZeroDivisionError: float division by zero"

/-- `get_preset_view` (model_renderer.py lines 158-189): the preset
dictionary, keyed on the lower-cased name, with the interactive-viewer
camera distance `max_dimension * 4.0`.  Returns `(position, up)`. -/
def get_preset_view (max_dimension : ℚ) (preset_name : String) :
    Option (V3 ℚ × V3 ℚ) :=
  let camera_distance := max_dimension * 4
  if lowerStr preset_name = "front" then some ((0, -camera_distance, 0), (0, 0, 1))
  else if lowerStr preset_name = "back" then some ((0, camera_distance, 0), (0, 0, 1))
  else if lowerStr preset_name = "top" then some ((0, 0, camera_distance), (0, 1, 0))
  else if lowerStr preset_name = "bottom" then some ((0, 0, -camera_distance), (0, 1, 0))
  else if lowerStr preset_name = "left" then some ((-camera_distance, 0, 0), (0, 0, 1))
  else if lowerStr preset_name = "right" then some ((camera_distance, 0, 0), (0, 0, 1))
  else none

/-- Normalization of a rational direction vector, `v / np.linalg.norm(v)`
(model_renderer.py lines 210 and 291); exact whenever the norm is rational,
which holds on every path the theorems below take (the claims quantify over
unit directions). -/
def V3.normalizeQ (v : V3 ℚ) : V3 ℚ := V3.sdiv v (ratSqrtD (V3.normSq v))

theorem V3.normalizeQ_of_normSq_one {v : V3 ℚ} (h : V3.normSq v = 1) :
    V3.normalizeQ v = v := by
  unfold V3.normalizeQ
  rw [h]
  have h1 : ratSqrtD 1 = 1 := by with_unfolding_all decide
  rw [h1]
  unfold V3.sdiv
  rw [div_one, div_one, div_one]

/-- The camera pose actually kept (model_renderer.py lines 261-294): one
branch per lower-cased preset name, in source order, each at distance
`camera_distance` from the origin along its canonical axis; the custom branch
positions the camera at `-direction * camera_distance` with up (0,0,1). -/
def frame_pose (camera_distance : ℚ) (preset : Option String)
    (view_direction : Option (V3 ℚ)) : Except String (V3 ℚ × V3 ℚ) :=
  match preset with
  | some p =>
    if lowerStr p = "top" then .ok ((0, 0, camera_distance), (0, 1, 0))
    else if lowerStr p = "front" then .ok ((0, -camera_distance, 0), (0, 0, 1))
    else if lowerStr p = "back" then .ok ((0, camera_distance, 0), (0, 0, 1))
    else if lowerStr p = "left" then .ok ((-camera_distance, 0, 0), (0, 0, 1))
    else if lowerStr p = "right" then .ok ((camera_distance, 0, 0), (0, 0, 1))
    else if lowerStr p = "bottom" then .ok ((0, 0, -camera_distance), (0, 1, 0))
    else .error unknownPresetMsg
  | none =>
    match view_direction with
    | some d => .ok (V3.scale (-camera_distance) (V3.normalizeQ d), (0, 0, 1))
    | none => .error mustSpecifyMsg

/-- The corrective-zoom step (model_renderer.py lines 313-327): when the
renderer reports visible prop bounds with positive visible width, the zoom is
`0.875 / (visible_width / max_size)` clamped to [0.5, 3.0]; python raises an
uncaught `ZeroDivisionError` if `max_size` is exactly zero on this path; when
no bounds are reported or the width is nonpositive, no zoom is applied. -/
def zoom_step (max_size : ℚ)
    (visible_bounds : Option (ℚ × ℚ × ℚ × ℚ × ℚ × ℚ)) :
    Except String (Option ℚ) :=
  match visible_bounds with
  | some (b0, b1, b2, b3, _, _) =>
    let visible_width := max (b1 - b0) (b3 - b2)
    if 0 < visible_width then
      if max_size = 0 then .error zeroDivisionMsg
      else .ok (some (max (1 / 2) (min 3 ((7 / 8) / (visible_width / max_size)))))
    else .ok none
  | none => .ok none

/-- The camera-relevant behaviour of `render_view` (model_renderer.py lines
191-336).  `x_size`, `y_size`, `z_size` are the bounding-box extents of the
(already centered) mesh; `diag` stands for `np.sqrt(x²+y²+z²)` (line 258) and
`dist` for `np.linalg.norm(camera_position - focal_point)` (line 303) — both
are square roots, so they enter relationally: theorems constrain them by
their defining equations.  `visible_bounds` is the external renderer's
`ComputeVisiblePropBounds()` report.  Python truthiness of `preset` sends the
empty string to the custom-direction branch. -/
def preset_truthy (preset : Option String) : Option String :=
  match preset with
  | some p => if p = "" then none else some p
  | none => none

def render_view (x_size y_size z_size diag dist : ℚ)
    (view_direction : Option (V3 ℚ)) (preset : Option String)
    (visible_bounds : Option (ℚ × ℚ × ℚ × ℚ × ℚ × ℚ)) :
    Except String CameraFrame :=
  let preset_arg : Option String := preset_truthy preset
  let max_dimension := max (x_size) (max y_size z_size)
  let early_check : Except String Unit :=
    match preset_arg with
    | some p =>
      match get_preset_view max_dimension p with
      | none => .error unknownPresetMsg
      | some _ => .ok ()
    | none =>
      match view_direction with
      | none => .error mustSpecifyMsg
      | some _ => .ok ()
  match early_check with
  | .error e => .error e
  | .ok _ =>
    let max_size := max (x_size) (max y_size z_size)
    let camera_distance := diag * (9 / 5)
    match frame_pose camera_distance preset_arg view_direction with
    | .error e => .error e
    | .ok pu =>
      let near_clip := max (dist - diag) (dist * (1 / 10))
      let far_clip := dist + diag
      match zoom_step max_size visible_bounds with
      | .error e => .error e
      | .ok z =>
        .ok { position := pu.1, focal_point := (0, 0, 0), up := pu.2,
              view_angle := 30, near_clip := near_clip, far_clip := far_clip,
              zoom_factor := z }

/-- The candidate tags in generation order (priority, then PCA, then standard
orthographic), as produced by `all_candidates`. -/
def candidate_names : List String :=
  ["top", "front", "pca_0_pos", "pca_0_neg", "pca_1_pos", "pca_1_neg",
   "pca_2_pos", "pca_2_neg", "right", "left", "back", "bottom", "diag_1", "diag_2"]

/-- Generation rank of a candidate tag (its position in generation order). -/
def gen_rank (name : String) : ℕ := candidate_names.indexOf name

/-- "Generated strictly earlier", read off the tags. -/
def rank_lt (x y : Vec × Q2 × String) : Prop := gen_rank x.2.2 < gen_rank y.2.2

/-- Strictly-descending-score-or-earlier-generation: the order in which a
stable descending sort lays out the scored candidates. -/
def lex_rel (x y : Vec × Q2 × String) : Prop :=
  y.2.1 < x.2.1 ∨ (x.2.1 = y.2.1 ∧ gen_rank x.2.2 < gen_rank y.2.2)

theorem candidate_names_pairwise :
    candidate_names.Pairwise (fun a b => gen_rank a < gen_rank b) := by decide

theorem scored_views_names (pca : Vec × Vec × Vec) (normals : Option (List Vec))
    (n_cells : ℕ) :
    (scored_views pca normals n_cells).map (fun v => v.2.2) = candidate_names := rfl

theorem scored_views_rank_pairwise (pca : Vec × Vec × Vec)
    (normals : Option (List Vec)) (n_cells : ℕ) :
    (scored_views pca normals n_cells).Pairwise rank_lt := by
  have h := candidate_names_pairwise
  rw [← scored_views_names pca normals n_cells, List.pairwise_map] at h
  exact h

theorem orderedInsert_lex (x : Vec × Q2 × String) (S : List (Vec × Q2 × String))
    (hsort : S.Sorted score_ge) (hP : S.Pairwise lex_rel)
    (hx : ∀ y ∈ S, gen_rank x.2.2 < gen_rank y.2.2) :
    (List.orderedInsert score_ge x S).Pairwise lex_rel := by
  induction S with
  | nil => simp [List.orderedInsert]
  | cons s S ih =>
    rw [List.orderedInsert]
    by_cases hc : score_ge x s
    · rw [if_pos hc]
      refine List.Pairwise.cons ?_ hP
      intro y hy
      have hys : y.2.1 ≤ s.2.1 := by
        rcases List.mem_cons.mp hy with rfl | hy2
        · exact le_refl _
        · exact (List.sorted_cons.mp hsort).1 y hy2
      have hxy : y.2.1 ≤ x.2.1 := le_trans hys hc
      rcases lt_or_eq_of_le hxy with h | h
      · exact Or.inl h
      · exact Or.inr ⟨h.symm, hx y hy⟩
    · rw [if_neg hc]
      have hxs : x.2.1 < s.2.1 := not_le.mp hc
      refine List.Pairwise.cons ?_
        (ih (List.sorted_cons.mp hsort).2 (List.pairwise_cons.mp hP).2
          (fun y hy => hx y (List.mem_cons_of_mem s hy)))
      intro y hy
      rcases (List.mem_orderedInsert score_ge).mp hy with rfl | hy2
      · exact Or.inl hxs
      · exact (List.pairwise_cons.mp hP).1 y hy2

theorem insertionSort_lex (l : List (Vec × Q2 × String)) (hl : l.Pairwise rank_lt) :
    (List.insertionSort score_ge l).Pairwise lex_rel := by
  induction l with
  | nil => simp [List.insertionSort]
  | cons x l ih =>
    rw [List.insertionSort]
    apply orderedInsert_lex
    · exact List.sorted_insertionSort score_ge l
    · exact ih (List.pairwise_cons.mp hl).2
    · intro y hy
      have hmem : y ∈ l := (List.perm_insertionSort score_ge l).mem_iff.mp hy
      exact (List.pairwise_cons.mp hl).1 y hmem

theorem sorted_views_lex (pca : Vec × Vec × Vec) (normals : Option (List Vec))
    (n_cells : ℕ) : (sorted_views pca normals n_cells).Pairwise lex_rel :=
  insertionSort_lex _ (scored_views_rank_pairwise pca normals n_cells)

theorem sorted_views_sorted (pca : Vec × Vec × Vec) (normals : Option (List Vec))
    (n_cells : ℕ) : (sorted_views pca normals n_cells).Sorted score_ge :=
  List.sorted_insertionSort score_ge _

theorem V3.dot_comm {α : Type} [CommRing α] (u v : V3 α) :
    V3.dot u v = V3.dot v u := by
  unfold V3.dot
  ring

/-- The pairwise guarantee maintained by the selection loop: the (raw, signed)
dot product of a later-accepted direction with an earlier-accepted one is at
most 0.9. -/
def dot_le (x y : Vec × Q2 × String) : Prop :=
  V3.dot y.1 x.1 ≤ Q2.ofRat (9 / 10)

theorem dedup_select_eq_append (n : ℕ) (l : List (Vec × Q2 × String)) :
    ∀ acc, ∃ s, dedup_select n acc l = acc ++ s ∧ s.Sublist l := by
  induction l with
  | nil => intro acc; exact ⟨[], by simp [dedup_select]⟩
  | cons v rest ih =>
    intro acc
    simp only [dedup_select]
    by_cases hg : ∀ w ∈ acc, ¬(Q2.ofRat (9 / 10) < V3.dot v.1 w.1)
    · rw [if_pos hg]
      by_cases hlen : n ≤ (acc ++ [v]).length
      · rw [if_pos hlen]
        exact ⟨[v], rfl, (List.nil_sublist rest).cons₂ v⟩
      · rw [if_neg hlen]
        obtain ⟨s, hs, hsub⟩ := ih (acc ++ [v])
        refine ⟨v :: s, ?_, hsub.cons₂ v⟩
        rw [hs, List.append_assoc, List.singleton_append]
    · rw [if_neg hg]
      by_cases hlen : n ≤ acc.length
      · rw [if_pos hlen]
        exact ⟨[], by simp, List.nil_sublist _⟩
      · rw [if_neg hlen]
        obtain ⟨s, hs, hsub⟩ := ih acc
        exact ⟨s, hs, hsub.cons v⟩

theorem dedup_select_pairwise (n : ℕ) (l : List (Vec × Q2 × String)) :
    ∀ acc, acc.Pairwise dot_le → (dedup_select n acc l).Pairwise dot_le := by
  induction l with
  | nil => intro acc hacc; simpa [dedup_select] using hacc
  | cons v rest ih =>
    intro acc hacc
    simp only [dedup_select]
    by_cases hg : ∀ w ∈ acc, ¬(Q2.ofRat (9 / 10) < V3.dot v.1 w.1)
    · rw [if_pos hg]
      have hacc2 : (acc ++ [v]).Pairwise dot_le := by
        rw [List.pairwise_append]
        refine ⟨hacc, List.pairwise_singleton _ _, ?_⟩
        intro a ha b hb
        rw [List.mem_singleton] at hb
        subst hb
        exact not_lt.mp (hg a ha)
      by_cases hlen : n ≤ (acc ++ [v]).length
      · rw [if_pos hlen]; exact hacc2
      · rw [if_neg hlen]; exact ih _ hacc2
    · rw [if_neg hg]
      by_cases hlen : n ≤ acc.length
      · rw [if_pos hlen]; exact hacc
      · rw [if_neg hlen]; exact ih _ hacc

theorem dedup_select_length (n : ℕ) (l : List (Vec × Q2 × String)) :
    ∀ acc, acc.length < n → (dedup_select n acc l).length ≤ n := by
  induction l with
  | nil => intro acc hacc; simp only [dedup_select]; exact hacc.le
  | cons v rest ih =>
    intro acc hacc
    simp only [dedup_select]
    by_cases hg : ∀ w ∈ acc, ¬(Q2.ofRat (9 / 10) < V3.dot v.1 w.1)
    · rw [if_pos hg]
      have h2 : (acc ++ [v]).length ≤ n := by
        simp only [List.length_append, List.length_singleton]
        omega
      by_cases hlen : n ≤ (acc ++ [v]).length
      · rw [if_pos hlen]; exact h2
      · rw [if_neg hlen]
        exact ih _ (by omega)
    · rw [if_neg hg]
      by_cases hlen : n ≤ acc.length
      · rw [if_pos hlen]; omega
      · rw [if_neg hlen]; exact ih _ (by omega)

instance exceptDecEq {e a : Type} [DecidableEq e] [DecidableEq a] :
    DecidableEq (Except e a) := fun x y =>
  match x, y with
  | .error e1, .error e2 =>
    if h : e1 = e2 then isTrue (by rw [h])
    else isFalse (by intro hc; injection hc; exact h (by assumption))
  | .error _, .ok _ => isFalse (by intro hc; exact Except.noConfusion hc)
  | .ok _, .error _ => isFalse (by intro hc; exact Except.noConfusion hc)
  | .ok a1, .ok a2 =>
    if h : a1 = a2 then isTrue (by rw [h])
    else isFalse (by intro hc; injection hc; exact h (by assumption))

/-- The preset names accepted by the code (lower-cased). -/
def preset_names : List String :=
  ["front", "back", "top", "bottom", "left", "right"]

/-- The standard basis as a concrete (unit) PCA component triple, for
concrete evaluations. -/
def pca_std : Vec × Vec × Vec :=
  (((1 : Q2), 0, 0), ((0 : Q2), 1, 0), ((0 : Q2), 0, 1))

/-- The frame produced by `render_view 3 4 0 5 9 none (some ("top")) none`
(bounding box 3x4x0, diagonal 5, camera distance 9). -/
def camera_frame_top : CameraFrame :=
  ⟨((0 : ℚ), 0, 9), ((0 : ℚ), 0, 0), ((0 : ℚ), 1, 0), 30, 4, 14, none⟩

/-- The frame produced by `render_view 1 1 1 1 1 none (some ("top"))
(some (0, 1/2, 0, 1/4, 0, 0))`: visible width 1/2 against max size 1 gives
zoom 0.875/(1/2) = 7/4, inside the clamp range. -/
def camera_frame_zoom : CameraFrame :=
  ⟨((0 : ℚ), 0, 9 / 5), ((0 : ℚ), 0, 0), ((0 : ℚ), 1, 0), 30, 1 / 10, 2,
    some (7 / 4)⟩

theorem V3.normSq_vneg {α : Type} [CommRing α] (v : V3 α) :
    V3.normSq (V3.vneg v) = V3.normSq v := by
  unfold V3.normSq V3.dot V3.vneg
  ring

theorem V3.normSq_scale {α : Type} [CommRing α] (c : α) (v : V3 α) :
    V3.normSq (V3.scale c v) = c ^ 2 * V3.normSq v := by
  unfold V3.normSq V3.dot V3.scale
  ring

theorem V3.vsub_zero (v : V3 ℚ) : V3.vsub v ((0 : ℚ), (0 : ℚ), (0 : ℚ)) = v := by
  unfold V3.vsub
  simp

theorem all_candidates_unit (pca : Vec × Vec × Vec)
    (h1 : V3.normSq pca.1 = 1) (h2 : V3.normSq pca.2.1 = 1)
    (h3 : V3.normSq pca.2.2 = 1) :
    ∀ c ∈ all_candidates pca, V3.normSq (V3.normalize c.1) = 1 := by
  intro c hc
  have hn1 : V3.normSq (V3.vneg pca.1) = 1 := by rw [V3.normSq_vneg]; exact h1
  have hn2 : V3.normSq (V3.vneg pca.2.1) = 1 := by rw [V3.normSq_vneg]; exact h2
  have hn3 : V3.normSq (V3.vneg pca.2.2) = 1 := by rw [V3.normSq_vneg]; exact h3
  simp only [all_candidates, priority_views, List.map_cons, List.map_nil,
    List.cons_append, List.nil_append, List.mem_cons, List.not_mem_nil,
    or_false] at hc
  rcases hc with rfl | rfl | rfl | rfl | rfl | rfl | rfl | rfl | rfl | rfl | rfl | rfl | rfl | rfl
  · with_unfolding_all decide
  · with_unfolding_all decide
  · rw [V3.normalize_of_normSq_one h1]; exact h1
  · rw [V3.normalize_of_normSq_one hn1]; exact hn1
  · rw [V3.normalize_of_normSq_one h2]; exact h2
  · rw [V3.normalize_of_normSq_one hn2]; exact hn2
  · rw [V3.normalize_of_normSq_one h3]; exact h3
  · rw [V3.normalize_of_normSq_one hn3]; exact hn3
  · with_unfolding_all decide
  · with_unfolding_all decide
  · with_unfolding_all decide
  · with_unfolding_all decide
  · with_unfolding_all decide
  · with_unfolding_all decide

theorem scored_views_unit (pca : Vec × Vec × Vec) (normals : Option (List Vec))
    (n_cells : ℕ)
    (h1 : V3.normSq pca.1 = 1) (h2 : V3.normSq pca.2.1 = 1)
    (h3 : V3.normSq pca.2.2 = 1) :
    ∀ sv ∈ scored_views pca normals n_cells, V3.normSq sv.1 = 1 := by
  intro sv hsv
  unfold scored_views at hsv
  obtain ⟨c, hc, rfl⟩ := List.mem_map.mp hsv
  exact all_candidates_unit pca h1 h2 h3 c hc

theorem unique_views_mem_sorted (pca : Vec × Vec × Vec)
    (normals : Option (List Vec)) (n_cells n_views : ℕ) :
    ∀ v ∈ unique_views pca normals n_cells n_views,
      v ∈ sorted_views pca normals n_cells := by
  intro v hv
  obtain ⟨s, hs, hsub⟩ :=
    dedup_select_eq_append n_views (sorted_views pca normals n_cells) []
  unfold unique_views at hv
  rw [hs, List.nil_append] at hv
  exact hsub.mem hv

theorem unique_views_sublist (pca : Vec × Vec × Vec)
    (normals : Option (List Vec)) (n_cells n_views : ℕ) :
    (unique_views pca normals n_cells n_views).Sublist
      (sorted_views pca normals n_cells) := by
  obtain ⟨s, hs, hsub⟩ :=
    dedup_select_eq_append n_views (sorted_views pca normals n_cells) []
  unfold unique_views
  rw [hs, List.nil_append]
  exact hsub

theorem render_view_ok_inversion {x y z diag dist : ℚ} {vd : Option (V3 ℚ)}
    {p : Option String} {vb : Option (ℚ × ℚ × ℚ × ℚ × ℚ × ℚ)} {fr : CameraFrame}
    (hok : render_view x y z diag dist vd p vb = .ok fr) :
    ∃ pu zf,
      frame_pose (diag * (9 / 5)) (preset_truthy p) vd = .ok pu ∧
      zoom_step (max x (max y z)) vb = .ok zf ∧
      fr = ⟨pu.1, (0, 0, 0), pu.2, 30, max (dist - diag) (dist * (1 / 10)),
            dist + diag, zf⟩ := by
  unfold render_view at hok
  dsimp only at hok
  split at hok
  · exact absurd hok (by simp)
  · split at hok
    · exact absurd hok (by simp)
    · rename_i pu hpose
      split at hok
      · exact absurd hok (by simp)
      · rename_i zf hzoom
        injection hok with h
        exact ⟨pu, zf, hpose, hzoom, h.symm⟩

theorem frame_pose_mem_ok {cd : ℚ} {q : String} {vd : Option (V3 ℚ)}
    (h : lowerStr q ∈ preset_names) :
    ∃ pu, frame_pose cd (some q) vd = .ok pu := by
  unfold preset_names at h
  simp only [List.mem_cons, List.not_mem_nil, or_false] at h
  unfold frame_pose
  rcases h with h | h | h | h | h | h <;> simp [h]

theorem not_mem_preset_names {q : String} (h : lowerStr q ∉ preset_names) :
    ¬lowerStr q = "front" ∧ ¬lowerStr q = "back" ∧ ¬lowerStr q = "top" ∧
      ¬lowerStr q = "bottom" ∧ ¬lowerStr q = "left" ∧ ¬lowerStr q = "right" := by
  unfold preset_names at h
  simpa [not_or] using h

theorem frame_pose_not_mem {cd : ℚ} {q : String} {vd : Option (V3 ℚ)}
    (h : lowerStr q ∉ preset_names) :
    frame_pose cd (some q) vd = .error unknownPresetMsg := by
  obtain ⟨h1, h2, h3, h4, h5, h6⟩ := not_mem_preset_names h
  unfold frame_pose
  dsimp only
  rw [if_neg h3, if_neg h1, if_neg h2, if_neg h5, if_neg h6, if_neg h4]

theorem get_preset_view_mem_isSome {m : ℚ} {q : String}
    (h : lowerStr q ∈ preset_names) :
    (get_preset_view m q).isSome = true := by
  unfold preset_names at h
  simp only [List.mem_cons, List.not_mem_nil, or_false] at h
  unfold get_preset_view
  rcases h with h | h | h | h | h | h <;> simp [h]

theorem get_preset_view_not_mem {m : ℚ} {q : String}
    (h : lowerStr q ∉ preset_names) :
    get_preset_view m q = none := by
  obtain ⟨h1, h2, h3, h4, h5, h6⟩ := not_mem_preset_names h
  unfold get_preset_view
  dsimp only
  rw [if_neg h1, if_neg h2, if_neg h3, if_neg h4, if_neg h5, if_neg h6]

theorem zoom_step_ok_of_ne {ms : ℚ} (hms : ms ≠ 0)
    (vb : Option (ℚ × ℚ × ℚ × ℚ × ℚ × ℚ)) : ∃ zf, zoom_step ms vb = .ok zf := by
  unfold zoom_step
  match vb with
  | none => exact ⟨none, rfl⟩
  | some (b0, b1, b2, b3, b4, b5) =>
    dsimp only
    by_cases h1 : 0 < max (b1 - b0) (b3 - b2)
    · rw [if_pos h1, if_neg hms]
      exact ⟨_, rfl⟩
    · rw [if_neg h1]
      exact ⟨none, rfl⟩

theorem lower_mem_ne_empty {q : String} (h : lowerStr q ∈ preset_names) :
    q ≠ "" := by
  intro he
  subst he
  revert h
  decide

theorem render_view_preset_ok {x y z diag dist : ℚ} {q : String}
    {vb : Option (ℚ × ℚ × ℚ × ℚ × ℚ × ℚ)}
    (hq : lowerStr q ∈ preset_names) (hms : max x (max y z) ≠ 0) :
    ∃ fr, render_view x y z diag dist none (some q) vb = .ok fr := by
  have hne : q ≠ "" := lower_mem_ne_empty hq
  obtain ⟨pu, hpu⟩ := @frame_pose_mem_ok (diag * (9 / 5)) q none hq
  obtain ⟨zf, hzf⟩ := zoom_step_ok_of_ne hms vb
  obtain ⟨pv, hpv⟩ :=
    Option.isSome_iff_exists.mp (get_preset_view_mem_isSome (m := max x (max y z)) hq)
  refine ⟨⟨pu.1, (0, 0, 0), pu.2, 30, max (dist - diag) (dist * (1 / 10)),
    dist + diag, zf⟩, ?_⟩
  unfold render_view preset_truthy
  dsimp only
  rw [if_neg hne]
  simp only [hpv, hpu, hzf]

theorem render_view_preset_err {x y z diag dist : ℚ} {q : String}
    {vb : Option (ℚ × ℚ × ℚ × ℚ × ℚ × ℚ)}
    (hq : lowerStr q ∉ preset_names) :
    ∃ e, render_view x y z diag dist none (some q) vb = .error e := by
  by_cases hne : q = ""
  · subst hne
    exact ⟨mustSpecifyMsg, rfl⟩
  · have hnone := get_preset_view_not_mem (m := max x (max y z)) hq
    refine ⟨unknownPresetMsg, ?_⟩
    unfold render_view preset_truthy
    dsimp only
    rw [if_neg hne]
    simp only [hnone]

set_option maxRecDepth 100000 in
/-- C1 (counterexample): with standard-basis principal components and
simplified visibility, `find_best_front_views` with `n_views = 4` returns both
(1,0,0) and (-1,0,0) — two returned directions whose dot product has absolute
value 1 > 0.9.  The de-duplication thresholds the raw, signed dot product, so
near-antipodal pairs are NOT filtered out, contradicting the claim. -/
theorem C1_counterexample :
    find_best_front_views pca_std none 0 4 =
      [(((0 : Q2), 0, 1), Q2.ofRat (24 / 5)), (((0 : Q2), -1, 0), Q2.ofRat (24 / 5)),
       (((1 : Q2), 0, 0), Q2.ofRat (19 / 5)), (((-1 : Q2), 0, 0), Q2.ofRat (19 / 5))] ∧
    Q2.ofRat (9 / 10) < Q2.qabs (V3.dot (((1 : Q2), 0, 0) : Vec) (((-1 : Q2), 0, 0) : Vec)) := by
  constructor
  · with_unfolding_all decide
  · with_unfolding_all decide

/-- C1 (amended): in the sequence returned by `find_best_front_views`, for all
i ≠ j the raw, signed dot product d_i·d_j is at most 0.9: a candidate is
rejected exactly when its signed dot product with an already-accepted
direction exceeds 0.9, so near-identical directions are filtered but
near-antipodal pairs are not. -/
theorem C1_theorem (pca : Vec × Vec × Vec) (normals : Option (List Vec))
    (n_cells n_views : ℕ) :
    (find_best_front_views pca normals n_cells n_views).Pairwise
      (fun dv1 dv2 => V3.dot dv1.1 dv2.1 ≤ Q2.ofRat (9 / 10) ∧
        V3.dot dv2.1 dv1.1 ≤ Q2.ofRat (9 / 10)) := by
  unfold find_best_front_views
  rw [List.pairwise_map]
  have h := dedup_select_pairwise n_views (sorted_views pca normals n_cells)
    [] List.Pairwise.nil
  refine h.imp ?_
  intro a b hab
  unfold dot_le at hab
  exact ⟨by rw [V3.dot_comm]; exact hab, hab⟩

set_option maxRecDepth 100000 in
/-- C3 (counterexample): `find_best_front_views` with `n_views = 0` returns
one entry, not at most zero — the selection loop checks the stop condition
only after accepting a candidate, so the first candidate is always kept. -/
theorem C3_counterexample :
    ¬(find_best_front_views pca_std none 0 0).length ≤ 0 := by
  with_unfolding_all decide

/-- C3 (amended): for every `n_views ≥ 1` and unit principal components,
`find_best_front_views` returns at most `n_views` entries, each direction a
unit vector, the scores are non-increasing along the returned sequence, and
the selected scored views are ordered by descending score with ties broken by
candidate generation order (priority, then PCA, then standard orthographic).
At `n_views = 0` the function instead returns exactly one entry. -/
theorem C3_theorem (pca : Vec × Vec × Vec) (normals : Option (List Vec))
    (n_cells n_views : ℕ) (hn : 1 ≤ n_views)
    (h1 : V3.normSq pca.1 = 1) (h2 : V3.normSq pca.2.1 = 1)
    (h3 : V3.normSq pca.2.2 = 1) :
    (find_best_front_views pca normals n_cells n_views).length ≤ n_views ∧
    (∀ dv ∈ find_best_front_views pca normals n_cells n_views,
      V3.normSq dv.1 = 1) ∧
    (find_best_front_views pca normals n_cells n_views).Pairwise
      (fun dv1 dv2 => dv2.2 ≤ dv1.2) ∧
    (unique_views pca normals n_cells n_views).Pairwise lex_rel := by
  refine ⟨?_, ?_, ?_, ?_⟩
  · unfold find_best_front_views
    rw [List.length_map]
    exact dedup_select_length n_views _ [] (by simpa using hn)
  · intro dv hdv
    unfold find_best_front_views at hdv
    obtain ⟨v, hv, rfl⟩ := List.mem_map.mp hdv
    have hmem := unique_views_mem_sorted pca normals n_cells n_views v hv
    unfold sorted_views at hmem
    have hmem2 : v ∈ scored_views pca normals n_cells :=
      (List.perm_insertionSort score_ge _).mem_iff.mp hmem
    exact scored_views_unit pca normals n_cells h1 h2 h3 v hmem2
  · unfold find_best_front_views
    rw [List.pairwise_map]
    exact List.Pairwise.sublist (unique_views_sublist pca normals n_cells n_views)
      (sorted_views_sorted pca normals n_cells)
  · exact List.Pairwise.sublist (unique_views_sublist pca normals n_cells n_views)
      (sorted_views_lex pca normals n_cells)

set_option maxRecDepth 100000 in
/-- C3 witness: the amended theorem evaluated at the standard-basis
components with `n_views = 1`. -/
theorem C3_witness :
    (find_best_front_views pca_std none 0 1).length ≤ 1 ∧
    (∀ dv ∈ find_best_front_views pca_std none 0 1, V3.normSq dv.1 = 1) ∧
    (find_best_front_views pca_std none 0 1).Pairwise
      (fun dv1 dv2 => dv2.2 ≤ dv1.2) ∧
    (unique_views pca_std none 0 1).Pairwise lex_rel :=
  C3_theorem pca_std none 0 1 (by decide) (by with_unfolding_all decide)
    (by with_unfolding_all decide) (by with_unfolding_all decide)

/-- C4: the visibility term is the constant 0.6 for meshes with at least
100000 cells; for cell counts strictly between 0 and 100000 it is the exact
fraction of face normals with positive dot product against the view
direction, with 0.6 substituted if the normal computation fails; and the
scorer call completes successfully on any nonempty point set. -/
theorem C4_theorem (normals : Option (List Vec)) (n_cells : ℕ) (d : Vec) :
    (100000 ≤ n_cells → visibility_score normals n_cells d = Q2.ofRat (3 / 5)) ∧
    (0 < n_cells → n_cells < 100000 →
      (∀ fns, normals = some fns → fns ≠ [] →
        visibility_score normals n_cells d =
          Q2.ofRat (((fns.countP (fun f => decide (0 < V3.dot f d))) : ℚ) /
            (fns.length : ℚ))) ∧
      (normals = none → visibility_score normals n_cells d = Q2.ofRat (3 / 5))) ∧
    (∀ points pca n_views, points ≠ [] →
      find_best_front_views_checked points pca normals n_cells n_views =
        .ok (find_best_front_views pca normals n_cells n_views)) := by
  refine ⟨?_, ?_, ?_⟩
  · intro hge
    unfold visibility_score
    rw [if_neg]
    intro hand
    omega
  · intro hpos hlt
    constructor
    · intro fns hfns hne
      subst hfns
      unfold visibility_score
      rw [if_pos ⟨hpos, hlt⟩]
      dsimp only
      rw [if_neg]
      simpa using hne
    · intro hfns
      subst hfns
      unfold visibility_score
      rw [if_pos ⟨hpos, hlt⟩]
  · intro points pca n_views hne
    unfold find_best_front_views_checked
    rw [if_neg]
    simpa using hne

/-- C4 witness: the exact fraction on a small mesh, and the constant at the
100000-cell threshold. -/
theorem C4_witness :
    visibility_score (some [(((1 : Q2), 0, 0) : Vec), (((-1 : Q2), 0, 0) : Vec)]) 5
      (((1 : Q2), 0, 0) : Vec) = Q2.ofRat (1 / 2) ∧
    visibility_score (some [(((1 : Q2), 0, 0) : Vec)]) 100000
      (((1 : Q2), 0, 0) : Vec) = Q2.ofRat (3 / 5) := by
  have h1 := C4_theorem (some [(((1 : Q2), 0, 0) : Vec), (((-1 : Q2), 0, 0) : Vec)]) 5
    (((1 : Q2), 0, 0) : Vec)
  have h2 := C4_theorem (some [(((1 : Q2), 0, 0) : Vec)]) 100000 (((1 : Q2), 0, 0) : Vec)
  constructor
  · have he := (h1.2.1 (by decide) (by decide)).1 _ rfl (by decide)
    rw [he]
    with_unfolding_all decide
  · exact h2.1 (by decide)

theorem render_view_preset_build {x y z diag dist : ℚ} {q : String}
    {vb : Option (ℚ × ℚ × ℚ × ℚ × ℚ × ℚ)} {zf : Option ℚ}
    (hq : lowerStr q ∈ preset_names)
    (hzf : zoom_step (max x (max y z)) vb = .ok zf) :
    ∃ fr, render_view x y z diag dist none (some q) vb = .ok fr := by
  have hne : q ≠ "" := lower_mem_ne_empty hq
  obtain ⟨pu, hpu⟩ := @frame_pose_mem_ok (diag * (9 / 5)) q none hq
  obtain ⟨pv, hpv⟩ :=
    Option.isSome_iff_exists.mp (get_preset_view_mem_isSome (m := max x (max y z)) hq)
  refine ⟨⟨pu.1, (0, 0, 0), pu.2, 30, max (dist - diag) (dist * (1 / 10)),
    dist + diag, zf⟩, ?_⟩
  unfold render_view preset_truthy
  dsimp only
  rw [if_neg hne]
  simp only [hpv, hpu, hzf]

theorem render_view_zoom_err {x y z diag dist : ℚ} {q : String}
    {vb : Option (ℚ × ℚ × ℚ × ℚ × ℚ × ℚ)} {e : String}
    (hq : lowerStr q ∈ preset_names)
    (hzf : zoom_step (max x (max y z)) vb = .error e) :
    render_view x y z diag dist none (some q) vb = .error e := by
  have hne : q ≠ "" := lower_mem_ne_empty hq
  obtain ⟨pu, hpu⟩ := @frame_pose_mem_ok (diag * (9 / 5)) q none hq
  obtain ⟨pv, hpv⟩ :=
    Option.isSome_iff_exists.mp (get_preset_view_mem_isSome (m := max x (max y z)) hq)
  unfold render_view preset_truthy
  dsimp only
  rw [if_neg hne]
  simp only [hpv, hpu, hzf]

theorem zoom_step_zero_err {b0 b1 b2 b3 b4 b5 : ℚ}
    (hvw : 0 < max (b1 - b0) (b3 - b2)) :
    zoom_step 0 (some (b0, b1, b2, b3, b4, b5)) = .error zeroDivisionMsg := by
  unfold zoom_step
  dsimp only
  rw [if_pos hvw, if_pos rfl]

/-- C9 (counterexample): a mesh with zero maximum bounding-box extent does
NOT make `render_view` fail: with no visible-bounds report the call completes
and returns a camera frame — there is no input validation of the maximum
dimension. -/
theorem C9_counterexample :
    max (0 : ℚ) (max 0 0) = 0 ∧
    render_view 0 0 0 0 0 none (some ("top")) none =
      .ok ⟨((0 : ℚ), 0, 0), ((0 : ℚ), 0, 0), ((0 : ℚ), 1, 0), 30, 0, 0, none⟩ := by
  constructor
  · with_unfolding_all decide
  · with_unfolding_all decide

/-- C9 (amended): `render_view` performs no zero-max-dimension validation:
with all bounding-box extents zero it completes (keeping the auto-fit result)
when the renderer reports no visible bounds, and fails — with an unhandled
division-by-zero, not an input-validation error — exactly when positive
visible width is reported; `find_best_front_views` on a mesh with zero points
fails in the external PCA fit. -/
theorem C9_theorem :
    (∀ diag dist : ℚ, ∀ q : String, lowerStr q ∈ preset_names →
      ∃ fr, render_view 0 0 0 diag dist none (some q) none = .ok fr) ∧
    (∀ diag dist b0 b1 b2 b3 b4 b5 : ℚ, ∀ q : String,
      lowerStr q ∈ preset_names → 0 < max (b1 - b0) (b3 - b2) →
      render_view 0 0 0 diag dist none (some q) (some (b0, b1, b2, b3, b4, b5)) =
        .error zeroDivisionMsg) ∧
    (∀ (points : List Vec) pca normals n_cells n_views, points = [] →
      find_best_front_views_checked points pca normals n_cells n_views =
        .error ("PCA fit failed: 0 samples")) := by
  refine ⟨?_, ?_, ?_⟩
  · intro diag dist q hq
    exact @render_view_preset_build 0 0 0 diag dist q none none hq rfl
  · intro diag dist b0 b1 b2 b3 b4 b5 q hq hvw
    apply render_view_zoom_err hq
    have hm : max (0 : ℚ) (max 0 0) = 0 := by simp
    rw [hm]
    exact zoom_step_zero_err hvw
  · intro points pca normals n_cells n_views hpts
    subst hpts
    rfl

/-- C9 witness: the amended theorem evaluated at a degenerate mesh with the
"left" preset, with and without a visible-bounds report, and the empty point
set. -/
theorem C9_witness :
    (∃ fr, render_view 0 0 0 5 9 none (some ("left")) none = .ok fr) ∧
    render_view 0 0 0 5 9 none (some ("left")) (some (0, 2, 0, 1, 0, 0)) =
      .error zeroDivisionMsg ∧
    find_best_front_views_checked [] pca_std none 0 3 =
      .error ("PCA fit failed: 0 samples") :=
  ⟨C9_theorem.1 5 9 "left" (by decide),
   C9_theorem.2.1 5 9 0 2 0 1 0 0 "left" (by decide) (by with_unfolding_all decide),
   C9_theorem.2.2 [] pca_std none 0 3 rfl⟩

theorem frame_pose_custom_eq {cd : ℚ} {d : V3 ℚ} :
    frame_pose cd none (some d) =
      .ok (V3.scale (-cd) (V3.normalizeQ d), ((0 : ℚ), 0, 1)) := rfl

theorem frame_pose_top {cd : ℚ} {q : String} {vd : Option (V3 ℚ)}
    (hq : lowerStr q = "top") :
    frame_pose cd (some q) vd = .ok (((0 : ℚ), 0, cd), ((0 : ℚ), 1, 0)) := by
  unfold frame_pose
  dsimp only
  rw [hq]
  simp

theorem frame_pose_front {cd : ℚ} {q : String} {vd : Option (V3 ℚ)}
    (hq : lowerStr q = "front") :
    frame_pose cd (some q) vd = .ok (((0 : ℚ), -cd, 0), ((0 : ℚ), 0, 1)) := by
  unfold frame_pose
  dsimp only
  rw [hq]
  simp

theorem frame_pose_back {cd : ℚ} {q : String} {vd : Option (V3 ℚ)}
    (hq : lowerStr q = "back") :
    frame_pose cd (some q) vd = .ok (((0 : ℚ), cd, 0), ((0 : ℚ), 0, 1)) := by
  unfold frame_pose
  dsimp only
  rw [hq]
  simp

theorem frame_pose_left {cd : ℚ} {q : String} {vd : Option (V3 ℚ)}
    (hq : lowerStr q = "left") :
    frame_pose cd (some q) vd = .ok ((-cd, (0 : ℚ), 0), ((0 : ℚ), 0, 1)) := by
  unfold frame_pose
  dsimp only
  rw [hq]
  simp

theorem frame_pose_right {cd : ℚ} {q : String} {vd : Option (V3 ℚ)}
    (hq : lowerStr q = "right") :
    frame_pose cd (some q) vd = .ok ((cd, (0 : ℚ), 0), ((0 : ℚ), 0, 1)) := by
  unfold frame_pose
  dsimp only
  rw [hq]
  simp

theorem frame_pose_bottom {cd : ℚ} {q : String} {vd : Option (V3 ℚ)}
    (hq : lowerStr q = "bottom") :
    frame_pose cd (some q) vd = .ok (((0 : ℚ), 0, -cd), ((0 : ℚ), 1, 0)) := by
  unfold frame_pose
  dsimp only
  rw [hq]
  simp

/-- C5: every frame produced by `render_view` has focal point at the origin
(the centroid after centering) and view angle 30 degrees; for a unit custom
direction the camera sits at `-direction * (1.8 * diag)` with up (0,0,1), and
for the six presets it sits at distance `1.8 * diag` along the canonical axis
with the preset up vector ((0,1,0) for top/bottom, (0,0,1) otherwise). -/
theorem C5_theorem (x y z diag dist : ℚ) (vd : Option (V3 ℚ))
    (p : Option String) (vb : Option (ℚ × ℚ × ℚ × ℚ × ℚ × ℚ))
    (fr : CameraFrame)
    (hok : render_view x y z diag dist vd p vb = .ok fr)
    (hdiag : 0 ≤ diag ∧ diag ^ 2 = x ^ 2 + y ^ 2 + z ^ 2) :
    fr.focal_point = ((0 : ℚ), 0, 0) ∧ fr.view_angle = 30 ∧
    (∀ d, vd = some d → preset_truthy p = none → V3.normSq d = 1 →
      fr.position = V3.scale (-(diag * (9 / 5))) d ∧ fr.up = ((0 : ℚ), 0, 1)) ∧
    (∀ q, p = some q → q ≠ "" →
      ((lowerStr q = "top" →
          fr.position = ((0 : ℚ), 0, diag * (9 / 5)) ∧ fr.up = ((0 : ℚ), 1, 0)) ∧
       (lowerStr q = "front" →
          fr.position = ((0 : ℚ), -(diag * (9 / 5)), 0) ∧ fr.up = ((0 : ℚ), 0, 1)) ∧
       (lowerStr q = "back" →
          fr.position = ((0 : ℚ), diag * (9 / 5), 0) ∧ fr.up = ((0 : ℚ), 0, 1)) ∧
       (lowerStr q = "left" →
          fr.position = (-(diag * (9 / 5)), (0 : ℚ), 0) ∧ fr.up = ((0 : ℚ), 0, 1)) ∧
       (lowerStr q = "right" →
          fr.position = (diag * (9 / 5), (0 : ℚ), 0) ∧ fr.up = ((0 : ℚ), 0, 1)) ∧
       (lowerStr q = "bottom" →
          fr.position = ((0 : ℚ), 0, -(diag * (9 / 5))) ∧ fr.up = ((0 : ℚ), 1, 0)))) := by
  obtain ⟨pu, zf, hpose, hzoom, rfl⟩ := render_view_ok_inversion hok
  refine ⟨rfl, rfl, ?_, ?_⟩
  · intro d hvd hpn hd1
    rw [hpn, hvd] at hpose
    have h2 := frame_pose_custom_eq.symm.trans hpose
    injection h2 with h2
    rw [show (-(diag * (9 / 5))) = -(diag * (9 / 5)) from rfl]
    constructor
    · show pu.1 = _
      rw [← h2, V3.normalizeQ_of_normSq_one hd1]
    · show pu.2 = _
      rw [← h2]
  · intro q hp hqne
    have hpt : preset_truthy p = some q := by
      rw [hp]
      unfold preset_truthy
      dsimp only
      rw [if_neg hqne]
    rw [hpt] at hpose
    refine ⟨?_, ?_, ?_, ?_, ?_, ?_⟩
    · intro hq
      have h2 := (@frame_pose_top (diag * (9 / 5)) q vd hq).symm.trans hpose
      injection h2 with h2
      exact ⟨by show pu.1 = _; rw [← h2], by show pu.2 = _; rw [← h2]⟩
    · intro hq
      have h2 := (@frame_pose_front (diag * (9 / 5)) q vd hq).symm.trans hpose
      injection h2 with h2
      exact ⟨by show pu.1 = _; rw [← h2], by show pu.2 = _; rw [← h2]⟩
    · intro hq
      have h2 := (@frame_pose_back (diag * (9 / 5)) q vd hq).symm.trans hpose
      injection h2 with h2
      exact ⟨by show pu.1 = _; rw [← h2], by show pu.2 = _; rw [← h2]⟩
    · intro hq
      have h2 := (@frame_pose_left (diag * (9 / 5)) q vd hq).symm.trans hpose
      injection h2 with h2
      exact ⟨by show pu.1 = _; rw [← h2], by show pu.2 = _; rw [← h2]⟩
    · intro hq
      have h2 := (@frame_pose_right (diag * (9 / 5)) q vd hq).symm.trans hpose
      injection h2 with h2
      exact ⟨by show pu.1 = _; rw [← h2], by show pu.2 = _; rw [← h2]⟩
    · intro hq
      have h2 := (@frame_pose_bottom (diag * (9 / 5)) q vd hq).symm.trans hpose
      injection h2 with h2
      exact ⟨by show pu.1 = _; rw [← h2], by show pu.2 = _; rw [← h2]⟩

/-- C5 witness: the theorem applied to the concrete "top" render of a 3x4x0
box (diagonal 5): focal point at the origin and view angle 30. -/
theorem C5_witness :
    camera_frame_top.focal_point = ((0 : ℚ), 0, 0) ∧
    camera_frame_top.view_angle = 30 := by
  have h := C5_theorem 3 4 0 5 9 none (some ("top")) none camera_frame_top
    (by with_unfolding_all decide) (by constructor <;> norm_num)
  exact ⟨h.1, h.2.1⟩

/-- C6: when the renderer reports visible bounds with positive visible width
(and the mesh has a nonzero max extent), the applied zoom factor is exactly
`0.875 / (visible_width / max_size)` clamped to [0.5, 3.0]; any applied zoom
factor lies in [0.5, 3.0]; with no visible-bounds report the zoom correction
is skipped. -/
theorem C6_theorem (x y z diag dist : ℚ) (vd : Option (V3 ℚ))
    (p : Option String) (vb : Option (ℚ × ℚ × ℚ × ℚ × ℚ × ℚ))
    (fr : CameraFrame)
    (hok : render_view x y z diag dist vd p vb = .ok fr) :
    (∀ b0 b1 b2 b3 b4 b5 : ℚ, vb = some (b0, b1, b2, b3, b4, b5) →
      0 < max (b1 - b0) (b3 - b2) → max x (max y z) ≠ 0 →
      fr.zoom_factor =
        some (max (1 / 2)
          (min 3 ((7 / 8) / (max (b1 - b0) (b3 - b2) / max x (max y z)))))) ∧
    (∀ zq : ℚ, fr.zoom_factor = some zq → 1 / 2 ≤ zq ∧ zq ≤ 3) ∧
    (vb = none → fr.zoom_factor = none) := by
  obtain ⟨pu, zf, hpose, hzoom, rfl⟩ := render_view_ok_inversion hok
  refine ⟨?_, ?_, ?_⟩
  · intro b0 b1 b2 b3 b4 b5 hvb hvw hms
    subst hvb
    unfold zoom_step at hzoom
    dsimp only at hzoom
    rw [if_pos hvw, if_neg hms] at hzoom
    injection hzoom with h
    show zf = _
    rw [← h]
  · intro zq hzq
    have hzq2 : zf = some zq := hzq
    rcases vb with _ | ⟨b0, b1, b2, b3, b4, b5⟩
    · injection hzoom with h
      rw [← h] at hzq2
      exact absurd hzq2 (by simp)
    · unfold zoom_step at hzoom
      dsimp only at hzoom
      by_cases hvw : 0 < max (b1 - b0) (b3 - b2)
      · rw [if_pos hvw] at hzoom
        by_cases hms : max x (max y z) = 0
        · rw [if_pos hms] at hzoom
          exact absurd hzoom (by simp)
        · rw [if_neg hms] at hzoom
          injection hzoom with h
          rw [← h] at hzq2
          injection hzq2 with h2
          rw [← h2]
          exact ⟨le_max_left _ _, max_le (by norm_num) (min_le_left _ _)⟩
      · rw [if_neg hvw] at hzoom
        injection hzoom with h
        rw [← h] at hzq2
        exact absurd hzq2 (by simp)
  · intro hvb
    subst hvb
    injection hzoom with h
    show zf = none
    exact h.symm

/-- C6 witness: the theorem applied to a concrete render with visible width
1/2 against max size 1, giving zoom 7/4 inside the clamp range. -/
theorem C6_witness :
    camera_frame_zoom.zoom_factor =
      some (max (1 / 2)
        (min 3 ((7 / 8) / (max ((1 : ℚ) / 2 - 0) ((1 : ℚ) / 4 - 0) /
          max 1 (max 1 1))))) ∧
    (1 / 2 ≤ (7 / 4 : ℚ) ∧ (7 / 4 : ℚ) ≤ 3) := by
  have h := C6_theorem 1 1 1 1 1 none (some ("top")) (some (0, 1 / 2, 0, 1 / 4, 0, 0))
    camera_frame_zoom (by with_unfolding_all decide)
  exact ⟨h.1 0 (1 / 2) 0 (1 / 4) 0 0 rfl (by with_unfolding_all decide)
      (by with_unfolding_all decide),
    h.2.1 (7 / 4) (by with_unfolding_all decide)⟩

theorem frame_pose_normSq {cd : ℚ} {pa : Option String} {vd : Option (V3 ℚ)}
    {pu : V3 ℚ × V3 ℚ} (hpose : frame_pose cd pa vd = .ok pu)
    (hunit : ∀ d, vd = some d → pa = none → V3.normSq d = 1) :
    V3.normSq pu.1 = cd ^ 2 := by
  match pa with
  | some q =>
    unfold frame_pose at hpose
    dsimp only at hpose
    split_ifs at hpose <;>
      first
        | (injection hpose with h
           rw [← h]
           unfold V3.normSq V3.dot
           ring)
        | exact absurd hpose (by simp)
  | none =>
    match vd with
    | some d =>
      have hd := hunit d rfl rfl
      unfold frame_pose at hpose
      dsimp only at hpose
      injection hpose with h
      rw [← h]
      dsimp only
      rw [V3.normalizeQ_of_normSq_one hd, V3.normSq_scale, hd]
      ring
    | none =>
      unfold frame_pose at hpose
      exact absurd hpose (by simp)

/-- C7: the clipping range of every produced frame is
`near = max(distance - diag, 0.1 * distance)`, `far = distance + diag`, and
whenever the camera distance is positive both `0 < near` and `near < far`
hold. -/
theorem C7_theorem (x y z diag dist : ℚ) (vd : Option (V3 ℚ))
    (p : Option String) (vb : Option (ℚ × ℚ × ℚ × ℚ × ℚ × ℚ))
    (fr : CameraFrame)
    (hok : render_view x y z diag dist vd p vb = .ok fr)
    (hdiag : 0 ≤ diag) (hdist0 : 0 ≤ dist)
    (hdist : dist ^ 2 = V3.normSq (V3.vsub fr.position fr.focal_point))
    (hunit : ∀ d, vd = some d → preset_truthy p = none → V3.normSq d = 1) :
    fr.near_clip = max (dist - diag) (dist * (1 / 10)) ∧
    fr.far_clip = dist + diag ∧
    (0 < dist → 0 < fr.near_clip ∧ fr.near_clip < fr.far_clip) := by
  obtain ⟨pu, zf, hpose, hzoom, rfl⟩ := render_view_ok_inversion hok
  refine ⟨rfl, rfl, ?_⟩
  intro hdp
  have hns := frame_pose_normSq hpose hunit
  have hd2 : dist ^ 2 = (diag * (9 / 5)) ^ 2 := by
    rw [hdist]
    dsimp only
    rw [V3.vsub_zero, hns]
  have hcd0 : 0 ≤ diag * (9 / 5) := mul_nonneg hdiag (by norm_num)
  have hle : dist ≤ diag * (9 / 5) := by nlinarith
  have hge : diag * (9 / 5) ≤ dist := by nlinarith
  have hdcd : dist = diag * (9 / 5) := le_antisymm hle hge
  have hdiagpos : 0 < diag := by linarith
  constructor
  · show (0 : ℚ) < max (dist - diag) (dist * (1 / 10))
    exact lt_of_lt_of_le (by linarith) (le_max_right (dist - diag) (dist * (1 / 10)))
  · show max (dist - diag) (dist * (1 / 10)) < dist + diag
    exact max_lt (by linarith) (by linarith)

/-- C7 witness: the theorem applied to the concrete "top" render of a 3x4x0
box (diagonal 5, camera distance 9): near = 4, far = 14. -/
theorem C7_witness :
    camera_frame_top.near_clip = max ((9 : ℚ) - 5) (9 * (1 / 10)) ∧
    camera_frame_top.far_clip = 9 + 5 ∧
    ((0 : ℚ) < 9 →
      0 < camera_frame_top.near_clip ∧
      camera_frame_top.near_clip < camera_frame_top.far_clip) :=
  C7_theorem 3 4 0 5 9 none (some ("top")) none camera_frame_top
    (by with_unfolding_all decide) (by norm_num) (by norm_num)
    (by with_unfolding_all decide)
    (fun d hd _ => Option.noConfusion hd)

/-- C8 (counterexample): "TOP" is not one of the six (lower-case) preset
names, yet `render_view` accepts it and produces a camera frame: matching is
case-insensitive, so the claim that every string outside the closed
enumeration fails is wrong. -/
theorem C8_counterexample :
    ("TOP" ∉ preset_names) ∧
    render_view 1 1 1 1 1 none (some ("TOP")) none =
      .ok ⟨((0 : ℚ), 0, 9 / 5), ((0 : ℚ), 0, 0), ((0 : ℚ), 1, 0), 30, 1 / 10, 2,
        none⟩ := by
  constructor
  · with_unfolding_all decide
  · with_unfolding_all decide

/-- C8 (amended): for a mesh with nonzero max extent, a preset-only
`render_view` call succeeds exactly when the lower-cased preset name is one
of the six names front/back/top/bottom/left/right, and fails with a
validation error otherwise — the enumeration is closed up to case. -/
theorem C8_theorem (x y z diag dist : ℚ) (q : String)
    (vb : Option (ℚ × ℚ × ℚ × ℚ × ℚ × ℚ))
    (hms : max x (max y z) ≠ 0) :
    (∃ fr, render_view x y z diag dist none (some q) vb = .ok fr) ↔
      lowerStr q ∈ preset_names := by
  constructor
  · rintro ⟨fr, hfr⟩
    by_contra hq
    obtain ⟨e, he⟩ := @render_view_preset_err x y z diag dist q vb hq
    rw [he] at hfr
    exact absurd hfr (by simp)
  · intro hq
    exact render_view_preset_ok hq hms

/-- C8 witness: the amended theorem at a 3x4x0 box with the "left" preset
(accepted) — instantiating the equivalence at a concrete input. -/
theorem C8_witness :
    (∃ fr, render_view 3 4 0 5 9 none (some ("left")) none = .ok fr) ↔
      lowerStr ("left") ∈ preset_names :=
  C8_theorem 3 4 0 5 9 "left" none (by with_unfolding_all decide)

/-- C10: preset matching is case-insensitive: `render_view` behaves
identically on a preset name and on its lower-cased form — the two calls
return equal results (the same camera frame on success). -/
theorem C10_theorem (x y z diag dist : ℚ) (vd : Option (V3 ℚ))
    (vb : Option (ℚ × ℚ × ℚ × ℚ × ℚ × ℚ)) (s : String) :
    render_view x y z diag dist vd (some s) vb =
      render_view x y z diag dist vd (some (lowerStr s)) vb := by
  by_cases hs : s = ""
  · subst hs
    rfl
  · have hs2 : lowerStr s ≠ "" := fun h => hs ((lowerStr_eq_empty_iff s).mp h)
    unfold render_view preset_truthy get_preset_view frame_pose
    dsimp only
    rw [if_neg hs, if_neg hs2]
    simp only [lowerStr_idem]

/-- C2: every candidate's final score is
`pca_alignment * 2.0 + visibility * 3.0`, plus an additional 1.0 exactly when
the candidate is one of the two priority candidates ("top" = (0,0,1),
"front" = (0,-1,0)); non-priority candidates receive no bonus. -/
theorem C2_theorem (pca : Vec × Vec × Vec) (normals : Option (List Vec))
    (n_cells : ℕ) :
    ∀ c ∈ all_candidates pca,
      (V3.normalize c.1,
        pca_alignment pca (V3.normalize c.1) * Q2.ofRat 2 +
          visibility_score normals n_cells (V3.normalize c.1) * Q2.ofRat 3 +
          (if c.2.2 then Q2.ofRat 1 else 0),
        c.2.1) ∈ scored_views pca normals n_cells ∧
      (c.2.2 = true ↔
        (c.2.1 = "top" ∧ c.1 = (((0 : Q2), 0, 1) : Vec)) ∨
        (c.2.1 = "front" ∧ c.1 = (((0 : Q2), -1, 0) : Vec))) := by
  intro c hc
  constructor
  · unfold scored_views
    apply List.mem_map.mpr
    refine ⟨c, hc, ?_⟩
    by_cases hb : c.2.2 <;> simp [hb]
  · simp only [all_candidates, priority_views, List.map_cons, List.map_nil,
      List.cons_append, List.nil_append, List.mem_cons, List.not_mem_nil,
      or_false] at hc
    rcases hc with rfl | rfl | rfl | rfl | rfl | rfl | rfl | rfl | rfl | rfl | rfl | rfl | rfl | rfl <;>
      simp

set_option maxRecDepth 100000 in
/-- C2 witness: the theorem applied to the "top" priority candidate with the
standard-basis components. -/
theorem C2_witness :
    ((V3.normalize (((0 : Q2), 0, 1) : Vec),
      pca_alignment pca_std (V3.normalize (((0 : Q2), 0, 1) : Vec)) * Q2.ofRat 2 +
        visibility_score none 0 (V3.normalize (((0 : Q2), 0, 1) : Vec)) * Q2.ofRat 3 +
        (if true then Q2.ofRat 1 else 0),
      "top") ∈ scored_views pca_std none 0) ∧
    (true = true ↔
      ("top" = "top" ∧ (((0 : Q2), 0, 1) : Vec) = (((0 : Q2), 0, 1) : Vec)) ∨
      ("top" = "front" ∧ (((0 : Q2), 0, 1) : Vec) = (((0 : Q2), -1, 0) : Vec))) :=
  C2_theorem pca_std none 0 ((((0 : Q2), 0, 1) : Vec), "top", true)
    (by with_unfolding_all decide)
